import Mathlib

/-!
Verification of the open-addressing hash table in `include/hash_table.h` /
`include/policy.h` (repository Skazzi00/itiviti-cpp).

Shallow embedding notes.

* `std::vector<Element>` becomes `List (Elem V)`; `size_` and `cells_cnt_`
  are `Nat` fields.  The `size_t` arithmetic that occurs in reachable states
  stays far below `2 ^ 64`, so `Nat` addition models it exactly; the one
  place where `size_t` could wrap (`size_--` after an out-of-bounds
  `erase(end())`) is reached only through behaviour that the embedding
  already reports as an error (`none`).
* The C++ mixes `size_t` with `float` (`max_load_factor_ = 0.5f`).
  Dividing or multiplying by `0.5f` is exact in IEEE `float` (it only
  shifts the exponent), but the `size_t → float` conversion rounds to 24
  significand bits; `floatRound24` models that rounding (to nearest, ties
  to even), and the constructor capacity `expected_max_size /
  max_load_factor_` is embedded as `2 * floatRound24 hint`.  The runtime
  comparisons `cells_cnt_ > max_load_factor() * bucket_count()`,
  `bucket_count() / max_load_factor()` and `size() / max_load_factor()`
  involve quantities below `2 ^ 24` in every state these theorems touch,
  where the conversion is exact, so they use the exact forms `2 * x` and
  `2 * cells > capacity`.
* `optimal_size` returns `k << 1u` on a 64-bit `size_t`: when bit 63 of
  the argument is set the shift wraps to 0; `optimalSize` keeps that wrap
  with an explicit `% 2 ^ 64`.
* The probe loops `for (; data_[*it].type != FREE; ++it)` have no bound in
  the C++.  Both shipped policies are periodic with period `capacity`
  (`(start + (i + cap)) % cap = (start + i) % cap` and likewise for
  `i * i`), so a search that fails for `capacity` consecutive steps cycles
  forever; `probeAux` therefore carries explicit fuel, the operations run
  it with fuel `capacity`, and `none` marks the loop that never exits.
* `rehash` calls the private `insert(Element&)`, which calls `check_size`,
  which may call `rehash` again.  `rehashF` carries a fuel argument that
  bounds this nesting depth; `none` marks fuel exhaustion.  All theorems
  below use depth 1, and their proofs show the nested call never fires.
-/

set_option linter.unusedVariables false

/-- `enum ElementType { FREE, DELETED, DATA }` together with the owned
value of a `DATA` slot (`struct Element`). -/
inductive Elem (V : Type) where
  | free : Elem V
  | deleted : Elem V
  | data : V → Elem V
  deriving DecidableEq

/-- The `HashTable` state: `data_` (the slot vector), `size_` (live
elements) and `cells_cnt_` (slots that ever became occupied: `DATA` plus
`DELETED`). -/
structure Table (V : Type) where
  data : List (Elem V)
  size : Nat
  cells : Nat
  deriving DecidableEq

/-- The template / constructor parameters of `HashTable`: the key
projection `key_from_value_`, the hash `hash_`, the key equality `equal_`
and the `CollisionPolicy`.  A policy is the function
`(capacity, start, step) ↦ candidate index` extracted from `policy.h`
(`operator*` after `step` increments). -/
structure Ctx (K V : Type) where
  kf : V → K
  hash : K → Nat
  beq : K → K → Bool
  pol : Nat → Nat → Nat → Nat

/-- `LinearProbing`: `(start + currentIndex) % size`. -/
def linearProbing (size start i : Nat) : Nat := (start + i) % size

/-- `QuadraticProbing`: `(start + currentBase * currentBase) % size`. -/
def quadraticProbing (size start i : Nat) : Nat := (start + i * i) % size

/-- `bucket_count()`, i.e. `data_.size()`. -/
def capacity {V : Type} (st : Table V) : Nat := st.data.length

/-- Reading slot `i` of the vector (`data_[i]`); in every state reached by
the operations the index is below `capacity`, so the default is never
consulted there. -/
def slotAt {V : Type} (st : Table V) (i : Nat) : Elem V := st.data.getD i Elem.free

/-- The probe loop shared by `emplace`, the private `insert(Element&)` and
`find`: starting at step `i`, it exits at the first `FREE` slot (second
component `false`) or at the first `DATA` slot whose key compares equal to
`k` (second component `true`); `DELETED` slots and non-matching `DATA`
slots are passed over.  `none` means the loop is still running after
`fuel` steps. -/
def probeAux {K V : Type} (c : Ctx K V) (st : Table V) (k : K) (start : Nat) :
    Nat → Nat → Option (Nat × Bool)
  | _, 0 => none
  | i, fuel + 1 =>
    match slotAt st (c.pol (capacity st) start i) with
    | Elem.free => some (c.pol (capacity st) start i, false)
    | Elem.deleted => probeAux c st k start (i + 1) fuel
    | Elem.data w =>
      if c.beq (c.kf w) k then some (c.pol (capacity st) start i, true)
      else probeAux c st k start (i + 1) fuel

/-- Writing a value into a `FREE` slot and bumping both counters: the tail
of `emplace` / private `insert` after the probe loop exits at `*it`. -/
def place {V : Type} (st : Table V) (idx : Nat) (v : V) : Table V :=
  ⟨st.data.set idx (Elem.data v), st.size + 1, st.cells + 1⟩

/-- The values held by `DATA` slots, in slot order (what iteration
exposes). -/
def liveList {V : Type} (l : List (Elem V)) : List V :=
  l.filterMap fun e =>
    match e with
    | Elem.data v => some v
    | _ => none

/-- Number of `DATA` slots. -/
def countData {V : Type} (l : List (Elem V)) : Nat :=
  (l.filter fun e =>
    match e with
    | Elem.data _ => true
    | _ => false).length

/-- Number of `DELETED` slots. -/
def countDeleted {V : Type} (l : List (Elem V)) : Nat :=
  (l.filter fun e =>
    match e with
    | Elem.deleted => true
    | _ => false).length

/-- Number of non-`FREE` slots (what `cells_cnt_` tracks). -/
def countBusy {V : Type} (l : List (Elem V)) : Nat :=
  (l.filter fun e =>
    match e with
    | Elem.free => false
    | _ => true).length

/-- `type == DATA` for one slot. -/
def isDataB {V : Type} : Elem V → Bool
  | Elem.data _ => true
  | _ => false

/-- Whether the probe loop exits at index `idx` when searching key `k`:
the slot is `FREE`, or holds data whose key compares equal. -/
def stopsAt {K V : Type} (c : Ctx K V) (st : Table V) (k : K) (idx : Nat) : Bool :=
  match slotAt st idx with
  | Elem.free => true
  | Elem.deleted => false
  | Elem.data w => c.beq (c.kf w) k

/-- `check_size` / private `insert` / `rehash`, with `reh` standing for
the `rehash` available at the current nesting depth.
`check_size`: `if (cells_cnt_ > max_load_factor() * bucket_count())
rehash(bucket_count() / max_load_factor());`. -/
def checkSizeW {K V : Type} (c : Ctx K V) (reh : Table V → Nat → Option (Table V))
    (st : Table V) : Option (Table V) :=
  if 2 * st.cells > capacity st then reh st (2 * capacity st) else some st

/-- The private `insert(Element&)`: `check_size`, then probe from
`hash(key) % capacity`; a matching `DATA` slot returns with no change, a
`FREE` slot receives the element. -/
def insertElemW {K V : Type} (c : Ctx K V) (reh : Table V → Nat → Option (Table V))
    (st : Table V) (v : V) : Option (Table V) :=
  match checkSizeW c reh st with
  | none => none
  | some st1 =>
    match probeAux c st1 (c.kf v) (c.hash (c.kf v) % capacity st1) 0 (capacity st1) with
    | none => none
    | some (_, true) => some st1
    | some (idx, false) => some (place st1 idx v)

/-- The reinsertion loop of `rehash`: `for (auto &el : old) if (el.type ==
DATA) insert(el);`, applied to the live values in slot order. -/
def insertAllW {K V : Type} (c : Ctx K V) (reh : Table V → Nat → Option (Table V)) :
    List V → Table V → Option (Table V)
  | [], st => some st
  | v :: rest, st =>
    match insertElemW c reh st v with
    | none => none
    | some st1 => insertAllW c reh rest st1

/-- `rehash(count)`: return if `count == bucket_count()`; clamp `count` to
at least `size() / max_load_factor()` (= `2 * size`); swap in a fresh
all-`FREE` vector of `count` slots with both counters zeroed; reinsert
every `DATA` element of the old vector.  The `Nat` index bounds the depth
of `rehash` nested inside `check_size` inside the reinsertion. -/
def rehashF {K V : Type} (c : Ctx K V) : Nat → Table V → Nat → Option (Table V)
  | 0, _, _ => none
  | n + 1, st, count0 =>
    if count0 = capacity st then some st
    else
      insertAllW c (fun st2 k2 => rehashF c n st2 k2) (liveList st.data)
        ⟨List.replicate (if count0 < 2 * st.size then 2 * st.size else count0) Elem.free, 0, 0⟩

/-- `check_size` at rehash-nesting depth `n`. -/
def checkSizeF {K V : Type} (c : Ctx K V) (n : Nat) (st : Table V) : Option (Table V) :=
  checkSizeW c (fun st2 k2 => rehashF c n st2 k2) st

/-- `emplace(args...)` (also `insert(value)`): `check_size`, hash the new
element's key modulo the (possibly rehashed) capacity, probe; a matching
`DATA` slot returns its position with `inserted = false`, the first `FREE`
slot receives the value with `inserted = true`. -/
def emplaceF {K V : Type} (c : Ctx K V) (n : Nat) (st : Table V) (v : V) :
    Option (Table V × Nat × Bool) :=
  match checkSizeF c n st with
  | none => none
  | some st1 =>
    match probeAux c st1 (c.kf v) (c.hash (c.kf v) % capacity st1) 0 (capacity st1) with
    | none => none
    | some (idx, true) => some (st1, idx, false)
    | some (idx, false) => some (place st1 idx v, idx, true)

/-- `insert(first, last)` / `insert(initializer_list)`: `emplace` each
element in order, discarding the returned pair. -/
def insertRangeF {K V : Type} (c : Ctx K V) (n : Nat) : List V → Table V → Option (Table V)
  | [], st => some st
  | v :: rest, st =>
    match emplaceF c n st v with
    | none => none
    | some (st1, _, _) => insertRangeF c n rest st1

/-- `find(key)`: probe from `hash_(key)` (the policy reduces it modulo
`capacity`); `some (some idx)` is a hit, `some none` is the end sentinel
(first slot on the walk is `FREE`), `none` is the walk that never exits. -/
def findF {K V : Type} (c : Ctx K V) (st : Table V) (k : K) : Option (Option Nat) :=
  match probeAux c st k (c.hash k) 0 (capacity st) with
  | none => none
  | some (idx, true) => some (some idx)
  | some (_, false) => some none

/-- `contains(key)` (via `count(key)`): whether `find` returns a
non-sentinel position. -/
def containsF {K V : Type} (c : Ctx K V) (st : Table V) (k : K) : Option Bool :=
  match findF c st k with
  | none => none
  | some o => some o.isSome

/-- The `end()` sentinel measured as `pos.source() - data_.begin()`. -/
def itIdx {V : Type} (st : Table V) : Option Nat → Nat
  | some i => i
  | none => capacity st

/-- `erase(const_iterator pos)` restricted to its table effect:
`data_[id].free()` (slot becomes `DELETED`, value dropped) and `size_--`;
`cells_cnt_` is untouched.  An index at or past `capacity` — which the C++
reaches when `pos` is the end sentinel, dereferencing and writing out of
bounds — is reported as `none`. -/
def eraseAt {V : Type} (st : Table V) (idx : Nat) : Option (Table V) :=
  if idx < capacity st then some ⟨st.data.set idx Elem.deleted, st.size - 1, st.cells⟩
  else none

/-- The do-while body of `erase(key)`: `erase(it); it = find(key); cnt++;`
repeated `while (it != end())`.  The fuel bounds loop iterations. -/
def eraseLoopF {K V : Type} (c : Ctx K V) (k : K) :
    Nat → Table V → Option Nat → Nat → Option (Table V × Nat)
  | 0, _, _, _ => none
  | fuel + 1, st, it, cnt =>
    match eraseAt st (itIdx st it) with
    | none => none
    | some st1 =>
      match findF c st1 k with
      | none => none
      | some it1 =>
        if it1.isSome then eraseLoopF c k fuel st1 it1 (cnt + 1)
        else some (st1, cnt + 1)

/-- `erase(const key_type&)`: `it = find(key)` followed by the do-while
loop.  Note the loop body runs at least once even when `find` already
returned the end sentinel. -/
def eraseKeyF {K V : Type} (c : Ctx K V) (st : Table V) (k : K) (fuel : Nat) :
    Option (Table V × Nat) :=
  match findF c st k with
  | none => none
  | some it => eraseLoopF c k fuel st it 0

/-- `std::vector::clear()`. -/
def vecClear {V : Type} (l : List (Elem V)) : List (Elem V) := []

/-- `std::vector::resize(n)`: truncate or extend with default-constructed
(`FREE`) elements. -/
def vecResize {V : Type} (l : List (Elem V)) (n : Nat) : List (Elem V) :=
  l.take n ++ List.replicate (n - l.length) Elem.free

/-- `clear()`: `data_.clear(); data_.resize(8); size_ = 0;
cells_cnt_ = 0;`. -/
def clear {V : Type} (st : Table V) : Table V :=
  ⟨vecResize (vecClear st.data) 8, 0, 0⟩

/-- The loop of `optimal_size`: `k` descends from `1 << 63` until
`sz & k != 0`.  The fuel `64` covers every position of a 64-bit word; it
runs out only for `sz = 0`, where the C++ loop never terminates (`0` is
the divergence marker). -/
def msbAux (sz : Nat) : Nat → Nat → Nat
  | _, 0 => 0
  | k, fuel + 1 => if sz &&& k = 0 then msbAux sz (k / 2) fuel else k

/-- `optimal_size(sz)`: `return k << 1u` — twice the highest set bit of
`sz`, computed in 64-bit `size_t` arithmetic, so when bit 63 of `sz` is
set the shift wraps to 0. -/
def optimalSize (sz : Nat) : Nat := 2 * msbAux sz (2 ^ 63) 64 % 2 ^ 64

/-- The value of `(float)n` for a 64-bit unsigned `n`: IEEE single
precision keeps 24 significand bits and rounds to nearest, ties to even.
Exact below `2 ^ 24`; above, `n` is rounded at the unit in the last place
`2 ^ (log2 n - 23)` (obtained here as the highest set bit of `n`, via the
structural `msbAux`, divided by `2 ^ 23`). -/
def floatRound24 (n : Nat) : Nat :=
  if n < 2 ^ 24 then n
  else
    let p := msbAux n (2 ^ 63) 64 / 2 ^ 23
    let q := n / p
    let r := n % p
    if 2 * r > p ∨ (2 * r = p ∧ q % 2 = 1) then (q + 1) * p else q * p

/-- A fresh all-`FREE` slot vector of the given length with zeroed
counters (`std::vector<Element>(n)` plus the counter initialisers). -/
def mkTable (V : Type) (cap : Nat) : Table V :=
  ⟨List.replicate cap Elem.free, 0, 0⟩

/-- The main and range constructors:
`data_(optimal_size(expected_max_size / max_load_factor_))`.  The hint is
converted to `float` (`floatRound24`) and divided by `0.5f` — an exact
doubling — before `optimal_size`; the `float → size_t` conversion back is
in range for every hint at or below `2 ^ 62` (beyond that the C++ is
undefined, and no theorem below quantifies there). -/
def ctorMain (V : Type) (hint : Nat) : Table V :=
  mkTable V (optimalSize (2 * floatRound24 hint))

/-- The `initializer_list` constructor: `data_(expected_max_size /
max_load_factor_)` — `2 * (float)hint` slots, NOT passed through
`optimal_size` — followed by `insert(init)`. -/
def ctorInit {K V : Type} (c : Ctx K V) (n : Nat) (init : List V) (hint : Nat) :
    Option (Table V) :=
  insertRangeF c n init (mkTable V (2 * floatRound24 hint))

/-- The body of `operator==` after the size test: `for (el : lhs) if
(!rhs.contains(key(el))) return false;`. -/
def allContained {K V : Type} (c : Ctx K V) (b : Table V) : List V → Option Bool
  | [] => some true
  | v :: rest =>
    match containsF c b (c.kf v) with
    | none => none
    | some true => allContained c b rest
    | some false => some false

/-- `operator==(lhs, rhs)`: sizes first, then every live element of `lhs`
looked up in `rhs` by key (`HashMap::operator==` forwards here
unchanged). -/
def tableEqF {K V : Type} (c : Ctx K V) (a b : Table V) : Option Bool :=
  if a.size = b.size then allContained c b (liveList a.data) else some false

/-- Executable pairwise key-distinctness of a value list (both comparison
orders, so no symmetry assumption on `equal_` is needed). -/
def pairwiseNe {K V : Type} (c : Ctx K V) : List V → Bool
  | [] => true
  | v :: rest =>
    (rest.all fun w => !c.beq (c.kf v) (c.kf w) && !c.beq (c.kf w) (c.kf v)) &&
      pairwiseNe c rest

/-- Executable table invariant: the counters match the slot vector
(`size_` counts `DATA`, `cells_cnt_` counts non-`FREE`), the vector is
nonempty, and live keys are pairwise distinct. -/
def validB {K V : Type} (c : Ctx K V) (st : Table V) : Bool :=
  (st.size == countData st.data) && (st.cells == countBusy st.data) &&
    (!(capacity st == 0)) && pairwiseNe c (liveList st.data)

/-- The propositional key-distinctness used in proofs. -/
def DistinctKeys {K V : Type} (c : Ctx K V) (l : List V) : Prop :=
  l.Pairwise fun a b => c.beq (c.kf a) (c.kf b) = false ∧ c.beq (c.kf b) (c.kf a) = false

/-- The propositional table invariant. -/
structure Valid {K V : Type} (c : Ctx K V) (st : Table V) : Prop where
  hsize : st.size = countData st.data
  hcells : st.cells = countBusy st.data
  hpos : 0 < capacity st
  hkeys : DistinctKeys c (liveList st.data)

/- Concrete instances used by the closed theorems below. -/

/-- Set-like instantiation: `Key = Value = Nat`, identity projection and
hash, `std::equal_to`, `LinearProbing`. -/
def idCtx : Ctx Nat Nat := ⟨id, id, Nat.beq, linearProbing⟩

/-- Same but with `QuadraticProbing`. -/
def qCtx : Ctx Nat Nat := ⟨id, id, Nat.beq, quadraticProbing⟩

/-- Set-like instantiation whose hash sends every key to bucket `0`. -/
def zCtx : Ctx Nat Nat := ⟨id, fun _ => 0, Nat.beq, linearProbing⟩

/-- Map-like instantiation: values are key/mapped pairs, the projection is
`.first` (as installed by `HashMap`), hash is the key itself. -/
def mapCtx : Ctx Nat (Nat × Nat) := ⟨Prod.fst, id, Nat.beq, linearProbing⟩

/-- A capacity-8 table holding keys 0..4 (reachable: see
`emplace_rehash_on_duplicate_cex`). -/
def tFive : Table Nat :=
  ⟨[Elem.data 0, Elem.data 1, Elem.data 2, Elem.data 3, Elem.data 4,
    Elem.free, Elem.free, Elem.free], 5, 5⟩

/-- A capacity-8 table with a tombstone at slot 0 and a live key 1. -/
def tTomb : Table Nat :=
  ⟨[Elem.deleted, Elem.data 1, Elem.free, Elem.free, Elem.free, Elem.free,
    Elem.free, Elem.free], 1, 2⟩

/-- A capacity-8 table under `qCtx` holding keys 0, 8, 16 (all hashing to
bucket 0), obtained by three quadratic-probing inserts: they land in slots
0, 1 and 4 — exactly the set `{(i * i) % 8}`. -/
def tQuad : Table Nat :=
  ⟨[Elem.data 0, Elem.data 8, Elem.free, Elem.free, Elem.data 16, Elem.free,
    Elem.free, Elem.free], 3, 3⟩

/-- Divergence of the probe loop searching the absent key 24 (hash 24,
bucket 0) in `tQuad`: no fuel makes it exit (the C++ loop runs forever). -/
def QuadStuck : Prop :=
  ∀ fuel, probeAux qCtx tQuad 24 24 0 fuel = none

/-- A map-like capacity-8 table binding key 1 to mapped value 100. -/
def tMapX : Table (Nat × Nat) :=
  ⟨[Elem.free, Elem.data (1, 100), Elem.free, Elem.free, Elem.free, Elem.free,
    Elem.free, Elem.free], 1, 1⟩

/-- Like `tMapX` but binding key 1 to mapped value 200. -/
def tMapY : Table (Nat × Nat) :=
  ⟨[Elem.free, Elem.data (1, 200), Elem.free, Elem.free, Elem.free, Elem.free,
    Elem.free, Elem.free], 1, 1⟩

/-- A capacity-8 table holding only key 1 (witness input). -/
def tOne : Table Nat :=
  ⟨[Elem.free, Elem.data 1, Elem.free, Elem.free, Elem.free, Elem.free,
    Elem.free, Elem.free], 1, 1⟩

/-- Witness input for the `find` characterisation: under `zCtx` every key
starts probing at slot 0, which is a tombstone here; key 5 sits behind it
in slot 1. -/
def tSkip : Table Nat :=
  ⟨[Elem.deleted, Elem.data 5, Elem.free, Elem.free, Elem.free, Elem.free,
    Elem.free, Elem.free], 1, 2⟩

/-- `tOne` after also inserting key 2 (witness input). -/
def tTwo : Table Nat :=
  ⟨[Elem.free, Elem.data 1, Elem.data 2, Elem.free, Elem.free, Elem.free,
    Elem.free, Elem.free], 2, 2⟩

/-- `tOne` after erasing key 1: slot 1 is a tombstone, `size_` dropped to
0, `cells_cnt_` still 1. -/
def tOneErased : Table Nat :=
  ⟨[Elem.free, Elem.deleted, Elem.free, Elem.free, Elem.free, Elem.free,
    Elem.free, Elem.free], 0, 1⟩


/-! ### Counting and slot-vector lemmas -/

@[simp] theorem countData_nil {V : Type} : countData ([] : List (Elem V)) = 0 := rfl

@[simp] theorem countData_cons_free {V : Type} {l : List (Elem V)} :
    countData (Elem.free :: l) = countData l := rfl

@[simp] theorem countData_cons_deleted {V : Type} {l : List (Elem V)} :
    countData (Elem.deleted :: l) = countData l := rfl

@[simp] theorem countData_cons_data {V : Type} {l : List (Elem V)} {v : V} :
    countData (Elem.data v :: l) = countData l + 1 := by
  simp [countData, List.filter]

@[simp] theorem countDeleted_nil {V : Type} : countDeleted ([] : List (Elem V)) = 0 := rfl

@[simp] theorem countDeleted_cons_free {V : Type} {l : List (Elem V)} :
    countDeleted (Elem.free :: l) = countDeleted l := rfl

@[simp] theorem countDeleted_cons_deleted {V : Type} {l : List (Elem V)} :
    countDeleted (Elem.deleted :: l) = countDeleted l + 1 := by
  simp [countDeleted, List.filter]

@[simp] theorem countDeleted_cons_data {V : Type} {l : List (Elem V)} {v : V} :
    countDeleted (Elem.data v :: l) = countDeleted l := rfl

@[simp] theorem countBusy_nil {V : Type} : countBusy ([] : List (Elem V)) = 0 := rfl

@[simp] theorem countBusy_cons_free {V : Type} {l : List (Elem V)} :
    countBusy (Elem.free :: l) = countBusy l := rfl

@[simp] theorem countBusy_cons_deleted {V : Type} {l : List (Elem V)} :
    countBusy (Elem.deleted :: l) = countBusy l + 1 := by
  simp [countBusy, List.filter]

@[simp] theorem countBusy_cons_data {V : Type} {l : List (Elem V)} {v : V} :
    countBusy (Elem.data v :: l) = countBusy l + 1 := by
  simp [countBusy, List.filter]

@[simp] theorem liveList_nil {V : Type} : liveList ([] : List (Elem V)) = [] := rfl

@[simp] theorem liveList_cons_free {V : Type} {l : List (Elem V)} :
    liveList (Elem.free :: l) = liveList l := rfl

@[simp] theorem liveList_cons_deleted {V : Type} {l : List (Elem V)} :
    liveList (Elem.deleted :: l) = liveList l := rfl

@[simp] theorem liveList_cons_data {V : Type} {l : List (Elem V)} {v : V} :
    liveList (Elem.data v :: l) = v :: liveList l := rfl

theorem countBusy_eq_add {V : Type} (l : List (Elem V)) :
    countBusy l = countData l + countDeleted l := by
  induction l with
  | nil => rfl
  | cons e l ih => cases e <;> simp [ih] <;> omega

theorem countData_le_countBusy {V : Type} (l : List (Elem V)) :
    countData l ≤ countBusy l := by
  rw [countBusy_eq_add]; omega

theorem countBusy_le_length {V : Type} (l : List (Elem V)) :
    countBusy l ≤ l.length := by
  simpa [countBusy] using List.length_filter_le _ l

theorem liveList_length {V : Type} (l : List (Elem V)) :
    (liveList l).length = countData l := by
  induction l with
  | nil => rfl
  | cons e l ih => cases e <;> simp [ih]

@[simp] theorem liveList_replicate_free {V : Type} (n : Nat) :
    liveList (List.replicate n (Elem.free : Elem V)) = [] := by
  induction n with
  | zero => rfl
  | succ n ih => simpa [List.replicate_succ] using ih

@[simp] theorem countData_replicate_free {V : Type} (n : Nat) :
    countData (List.replicate n (Elem.free : Elem V)) = 0 := by
  induction n with
  | zero => rfl
  | succ n ih => simpa [List.replicate_succ] using ih

@[simp] theorem countBusy_replicate_free {V : Type} (n : Nat) :
    countBusy (List.replicate n (Elem.free : Elem V)) = 0 := by
  induction n with
  | zero => rfl
  | succ n ih => simpa [List.replicate_succ] using ih

@[simp] theorem countDeleted_replicate_free {V : Type} (n : Nat) :
    countDeleted (List.replicate n (Elem.free : Elem V)) = 0 := by
  induction n with
  | zero => rfl
  | succ n ih => simpa [List.replicate_succ] using ih

theorem mem_liveList_of_getD {V : Type} (l : List (Elem V)) (i : Nat) (w : V)
    (h : l.getD i Elem.free = Elem.data w) : w ∈ liveList l := by
  induction l generalizing i with
  | nil => simp [List.getD] at h
  | cons e l ih =>
    cases i with
    | zero =>
      simp only [List.getD_cons_zero] at h
      subst h; simp
    | succ i =>
      simp only [List.getD_cons_succ] at h
      cases e <;> simp [ih i h]

theorem exists_free_of_countBusy_lt {V : Type} (l : List (Elem V))
    (h : countBusy l < l.length) : ∃ i, i < l.length ∧ l.getD i Elem.free = Elem.free := by
  induction l with
  | nil => simp at h
  | cons e l ih =>
    cases e with
    | free => exact ⟨0, by simp, by simp⟩
    | deleted =>
      simp only [countBusy_cons_deleted, List.length_cons] at h
      obtain ⟨i, hi, hget⟩ := ih (by omega)
      exact ⟨i + 1, by simpa using hi, by simpa using hget⟩
    | data v =>
      simp only [countBusy_cons_data, List.length_cons] at h
      obtain ⟨i, hi, hget⟩ := ih (by omega)
      exact ⟨i + 1, by simpa using hi, by simpa using hget⟩

theorem countData_set_data {V : Type} (l : List (Elem V)) (i : Nat) (v : V)
    (hfree : l.getD i Elem.free = Elem.free) (hi : i < l.length) :
    countData (l.set i (Elem.data v)) = countData l + 1 := by
  induction l generalizing i with
  | nil => simp at hi
  | cons e l ih =>
    cases i with
    | zero =>
      simp only [List.getD_cons_zero] at hfree
      subst hfree; simp
    | succ i =>
      simp only [List.getD_cons_succ] at hfree
      simp only [List.length_cons] at hi
      cases e <;> simp [List.set, ih i hfree (by omega)]

theorem countBusy_set_data {V : Type} (l : List (Elem V)) (i : Nat) (v : V)
    (hfree : l.getD i Elem.free = Elem.free) (hi : i < l.length) :
    countBusy (l.set i (Elem.data v)) = countBusy l + 1 := by
  induction l generalizing i with
  | nil => simp at hi
  | cons e l ih =>
    cases i with
    | zero =>
      simp only [List.getD_cons_zero] at hfree
      subst hfree; simp
    | succ i =>
      simp only [List.getD_cons_succ] at hfree
      simp only [List.length_cons] at hi
      cases e <;> simp [List.set, ih i hfree (by omega)]

theorem countDeleted_set_data {V : Type} (l : List (Elem V)) (i : Nat) (v : V)
    (hfree : l.getD i Elem.free = Elem.free) :
    countDeleted (l.set i (Elem.data v)) = countDeleted l := by
  induction l generalizing i with
  | nil => simp [List.set]
  | cons e l ih =>
    cases i with
    | zero =>
      simp only [List.getD_cons_zero] at hfree
      subst hfree; simp
    | succ i =>
      simp only [List.getD_cons_succ] at hfree
      cases e <;> simp [List.set, ih i hfree]

theorem liveList_set_data_perm {V : Type} (l : List (Elem V)) (i : Nat) (v : V)
    (hfree : l.getD i Elem.free = Elem.free) (hi : i < l.length) :
    List.Perm (liveList (l.set i (Elem.data v))) (v :: liveList l) := by
  induction l generalizing i with
  | nil => simp at hi
  | cons e l ih =>
    cases i with
    | zero =>
      simp only [List.getD_cons_zero] at hfree
      subst hfree; simp
    | succ i =>
      simp only [List.getD_cons_succ] at hfree
      simp only [List.length_cons] at hi
      cases e with
      | free => simpa [List.set] using ih i hfree (by omega)
      | deleted => simpa [List.set] using ih i hfree (by omega)
      | data w =>
        simp only [List.set, liveList_cons_data]
        exact ((ih i hfree (by omega)).cons w).trans (List.Perm.swap v w _)

theorem length_set_elem {V : Type} (l : List (Elem V)) (i : Nat) (e : Elem V) :
    (l.set i e).length = l.length := by simp

/-! ### Invariant bridging -/

theorem distinctRel_symm {K V : Type} (c : Ctx K V) :
    ∀ {a b : V}, (c.beq (c.kf a) (c.kf b) = false ∧ c.beq (c.kf b) (c.kf a) = false) →
      (c.beq (c.kf b) (c.kf a) = false ∧ c.beq (c.kf a) (c.kf b) = false) :=
  fun h => ⟨h.2, h.1⟩

theorem distinctKeys_perm {K V : Type} (c : Ctx K V) {l l2 : List V}
    (hp : List.Perm l l2) : DistinctKeys c l ↔ DistinctKeys c l2 :=
  hp.pairwise_iff fun h => distinctRel_symm c h

theorem pairwiseNe_iff {K V : Type} (c : Ctx K V) (l : List V) :
    pairwiseNe c l = true ↔ DistinctKeys c l := by
  induction l with
  | nil => simp [pairwiseNe, DistinctKeys]
  | cons v rest ih =>
    unfold DistinctKeys at ih ⊢
    rw [List.pairwise_cons, ← ih]
    simp only [pairwiseNe, Bool.and_eq_true, List.all_eq_true, Bool.not_eq_true']

theorem validB_iff {K V : Type} (c : Ctx K V) (st : Table V) :
    validB c st = true ↔ Valid c st := by
  simp only [validB, Bool.and_eq_true, beq_iff_eq, Bool.not_eq_true', beq_eq_false_iff_ne,
    ne_eq, pairwiseNe_iff]
  constructor
  · rintro ⟨⟨⟨h1, h2⟩, h3⟩, h4⟩
    exact ⟨h1, h2, Nat.pos_of_ne_zero h3, h4⟩
  · rintro ⟨h1, h2, h3, h4⟩
    exact ⟨⟨⟨h1, h2⟩, Nat.pos_iff_ne_zero.mp h3⟩, h4⟩

/-! ### Probe-loop characterisation -/

theorem probeAux_stop {K V : Type} (c : Ctx K V) (st : Table V) (k : K) (start i fuel : Nat)
    (hstop : stopsAt c st k (c.pol (capacity st) start i) = true) :
    probeAux c st k start i (fuel + 1) =
      some (c.pol (capacity st) start i, isDataB (slotAt st (c.pol (capacity st) start i))) := by
  rcases h : slotAt st (c.pol (capacity st) start i) with _ | _ | w
  · simp [probeAux, h, isDataB]
  · simp [stopsAt, h] at hstop
  · have hbeq : c.beq (c.kf w) k = true := by simpa [stopsAt, h] using hstop
    simp [probeAux, h, isDataB, hbeq]

theorem probeAux_not_stop {K V : Type} (c : Ctx K V) (st : Table V) (k : K) (start i fuel : Nat)
    (hstop : stopsAt c st k (c.pol (capacity st) start i) = false) :
    probeAux c st k start i (fuel + 1) = probeAux c st k start (i + 1) fuel := by
  rcases h : slotAt st (c.pol (capacity st) start i) with _ | _ | w
  · simp [stopsAt, h] at hstop
  · simp [probeAux, h]
  · have hbeq : c.beq (c.kf w) k = false := by simpa [stopsAt, h] using hstop
    simp [probeAux, h, hbeq]

theorem probeAux_first {K V : Type} (c : Ctx K V) (st : Table V) (k : K) (start : Nat) :
    ∀ fuel i j : Nat, i ≤ j → j < i + fuel →
    (∀ m, i ≤ m → m < j → stopsAt c st k (c.pol (capacity st) start m) = false) →
    stopsAt c st k (c.pol (capacity st) start j) = true →
    probeAux c st k start i fuel =
      some (c.pol (capacity st) start j, isDataB (slotAt st (c.pol (capacity st) start j))) := by
  intro fuel
  induction fuel with
  | zero => intro i j h1 h2 _ _; omega
  | succ fuel ih =>
    intro i j hij hlt hmiss hstop
    rcases Nat.eq_or_lt_of_le hij with rfl | hgt
    · exact probeAux_stop c st k start i fuel hstop
    · rw [probeAux_not_stop c st k start i fuel (hmiss i le_rfl hgt)]
      exact ih (i + 1) j hgt (by omega) (fun m hm1 hm2 => hmiss m (by omega) hm2) hstop

theorem probeAux_none {K V : Type} (c : Ctx K V) (st : Table V) (k : K) (start : Nat) :
    ∀ fuel i : Nat,
    (∀ m, i ≤ m → m < i + fuel → stopsAt c st k (c.pol (capacity st) start m) = false) →
    probeAux c st k start i fuel = none := by
  intro fuel
  induction fuel with
  | zero => intro i _; rfl
  | succ fuel ih =>
    intro i hmiss
    rw [probeAux_not_stop c st k start i fuel (hmiss i le_rfl (by omega))]
    exact ih (i + 1) fun m hm1 hm2 => hmiss m (by omega) (by omega)

theorem probeAux_blocked {K V : Type} (c : Ctx K V) (st : Table V) (k : K) (start : Nat)
    (h : ∀ m, stopsAt c st k (c.pol (capacity st) start m) = false) :
    ∀ fuel i, probeAux c st k start i fuel = none := fun fuel i =>
  probeAux_none c st k start fuel i fun m _ _ => h m

theorem linear_hits (cap start idx : Nat) (hcap : 0 < cap) (hidx : idx < cap) :
    ∃ j, j < cap ∧ linearProbing cap start j = idx := by
  refine ⟨(cap + idx - start % cap) % cap, Nat.mod_lt _ hcap, ?_⟩
  unfold linearProbing
  rw [Nat.add_mod_mod, ← Nat.mod_add_mod]
  have hs : start % cap < cap := Nat.mod_lt _ hcap
  have h1 : start % cap + (cap + idx - start % cap) = cap + idx := by omega
  rw [h1, Nat.add_mod_left, Nat.mod_eq_of_lt hidx]

theorem exists_stop_of_free {K V : Type} (c : Ctx K V) (st : Table V) (k : K) (start : Nat)
    (hpol : c.pol = linearProbing) (hcap : 0 < capacity st)
    (hfree : ∃ i, i < capacity st ∧ slotAt st i = Elem.free) :
    ∃ j, j < capacity st ∧ stopsAt c st k (c.pol (capacity st) start j) = true := by
  obtain ⟨idx, hidx, hf⟩ := hfree
  obtain ⟨j, hj, hje⟩ := linear_hits (capacity st) start idx hcap hidx
  refine ⟨j, hj, ?_⟩
  rw [hpol, hje]
  simp [stopsAt, hf]

theorem exists_least_stop {K V : Type} (c : Ctx K V) (st : Table V) (k : K) (start : Nat)
    (h : ∃ j, stopsAt c st k (c.pol (capacity st) start j) = true) :
    ∃ j, stopsAt c st k (c.pol (capacity st) start j) = true ∧
      (∀ m, m < j → stopsAt c st k (c.pol (capacity st) start m) = false) ∧
      ∀ j2, stopsAt c st k (c.pol (capacity st) start j2) = true → j ≤ j2 := by
  refine ⟨Nat.find h, Nat.find_spec h, ?_, ?_⟩
  · intro m hm
    have := Nat.find_min h hm
    simpa using this
  · intro j2 hj2
    exact Nat.find_min' h hj2

/-- With linear probing and at least one `FREE` slot, the probe loop exits
within `capacity` steps, at the first stopping index of the walk. -/
theorem probe_some_of_free {K V : Type} (c : Ctx K V) (st : Table V) (k : K) (start : Nat)
    (hpol : c.pol = linearProbing) (hcap : 0 < capacity st)
    (hbusy : countBusy st.data < capacity st) :
    ∃ j, j < capacity st ∧
      (∀ m, m < j → stopsAt c st k (c.pol (capacity st) start m) = false) ∧
      stopsAt c st k (c.pol (capacity st) start j) = true ∧
      probeAux c st k start 0 (capacity st) =
        some (c.pol (capacity st) start j, isDataB (slotAt st (c.pol (capacity st) start j))) := by
  obtain ⟨idx, hidx, hf⟩ := exists_free_of_countBusy_lt st.data hbusy
  obtain ⟨j0, hj0, hstop0⟩ := exists_stop_of_free c st k start hpol hcap ⟨idx, hidx, hf⟩
  obtain ⟨j, hstop, hmin, hle⟩ := exists_least_stop c st k start ⟨j0, hstop0⟩
  have hjlt : j < capacity st := lt_of_le_of_lt (hle j0 hstop0) hj0
  exact ⟨j, hjlt, hmin, hstop,
    probeAux_first c st k start (capacity st) 0 j (Nat.zero_le j) (by omega)
      (fun m _ hm2 => hmin m hm2) hstop⟩

/-! ### The private insert, the rehash reinsertion loop, and `check_size` -/

/-- One private `insert(Element&)` on a table that is under the load
bound and holds no key equal to the new element's key: it targets the
first `FREE` slot of the probe walk. -/
theorem insertElemW_fresh {K V : Type} (c : Ctx K V)
    (reh : Table V → Nat → Option (Table V)) (st : Table V) (v : V)
    (hpol : c.pol = linearProbing)
    (hnotrig : 2 * st.cells ≤ capacity st)
    (hcells : st.cells = countBusy st.data)
    (hbusy : countBusy st.data < capacity st)
    (hnew : ∀ w ∈ liveList st.data, c.beq (c.kf w) (c.kf v) = false) :
    ∃ idx, idx < capacity st ∧ slotAt st idx = Elem.free ∧
      insertElemW c reh st v = some (place st idx v) := by
  have hcap : 0 < capacity st := Nat.lt_of_le_of_lt (Nat.zero_le _) hbusy
  obtain ⟨j, hjlt, hmiss, hstop, hprobe⟩ :=
    probe_some_of_free c st (c.kf v) (c.hash (c.kf v) % capacity st) hpol hcap hbusy
  have hidxlt : c.pol (capacity st) (c.hash (c.kf v) % capacity st) j < capacity st := by
    rw [hpol]
    exact Nat.mod_lt _ hcap
  have hcs : checkSizeW c reh st = some st := by
    unfold checkSizeW
    rw [if_neg (by omega)]
  rcases hslot : slotAt st (c.pol (capacity st) (c.hash (c.kf v) % capacity st) j)
    with _ | _ | w
  · refine ⟨_, hidxlt, hslot, ?_⟩
    unfold insertElemW
    rw [hcs]
    simp only [hprobe, hslot, isDataB]
  · simp [stopsAt, hslot] at hstop
  · have hbeq : c.beq (c.kf w) (c.kf v) = true := by simpa [stopsAt, hslot] using hstop
    have hw : w ∈ liveList st.data := mem_liveList_of_getD st.data _ w hslot
    rw [hnew w hw] at hbeq
    exact absurd hbeq (by simp)

/-- The reinsertion loop of `rehash`: starting from a table with matching
counters and no tombstones, inserting pairwise-fresh, pairwise-distinct
values (with enough room to stay at or under the load bound throughout)
succeeds, never triggers the nested `check_size` rehash, and adds exactly
the given values. -/
theorem insertAllW_spec {K V : Type} (c : Ctx K V)
    (reh : Table V → Nat → Option (Table V)) (hpol : c.pol = linearProbing) :
    ∀ (L : List V) (acc : Table V),
    acc.size = countData acc.data →
    acc.cells = countBusy acc.data →
    countDeleted acc.data = 0 →
    DistinctKeys c (liveList acc.data ++ L) →
    2 * (acc.cells + L.length) ≤ capacity acc →
    ∃ fin, insertAllW c reh L acc = some fin ∧
      capacity fin = capacity acc ∧
      fin.size = acc.size + L.length ∧
      fin.cells = acc.cells + L.length ∧
      fin.size = countData fin.data ∧
      fin.cells = countBusy fin.data ∧
      countDeleted fin.data = 0 ∧
      List.Perm (liveList fin.data) (liveList acc.data ++ L) := by
  intro L
  induction L with
  | nil =>
    intro acc h1 h2 h3 h4 h5
    exact ⟨acc, rfl, rfl, by simp, by simp, h1, h2, h3, by simp⟩
  | cons v rest ih =>
    intro acc h1 h2 h3 h4 h5
    have hpairs := (List.pairwise_append.mp h4).2.2
    have hnew : ∀ w ∈ liveList acc.data, c.beq (c.kf w) (c.kf v) = false :=
      fun w hw => (hpairs w hw v (by simp)).1
    have hbusy : countBusy acc.data < capacity acc := by
      simp only [List.length_cons] at h5
      omega
    obtain ⟨idx, hidxlt, hfree, heq⟩ :=
      insertElemW_fresh c reh acc v hpol (by simp only [List.length_cons] at h5; omega)
        h2 hbusy hnew
    have hlive1 : List.Perm (liveList (place acc idx v).data) (v :: liveList acc.data) := by
      simpa [place] using liveList_set_data_perm acc.data idx v hfree hidxlt
    have hperm2 : List.Perm (liveList (place acc idx v).data ++ rest)
        (liveList acc.data ++ v :: rest) := by
      refine (hlive1.append_right rest).trans ?_
      exact List.perm_middle.symm
    have hkeys1 : DistinctKeys c (liveList (place acc idx v).data ++ rest) :=
      (distinctKeys_perm c hperm2).mpr h4
    obtain ⟨fin, hall, hc, hs, hcl, hs2, hc2, hd2, hp2⟩ := ih (place acc idx v)
      (by simpa [place, h1] using (countData_set_data acc.data idx v hfree hidxlt).symm)
      (by simpa [place, h2] using (countBusy_set_data acc.data idx v hfree hidxlt).symm)
      (by simpa [place] using (countDeleted_set_data acc.data idx v hfree).trans h3)
      hkeys1
      (by simp only [place, capacity, List.length_set, List.length_cons] at h5 ⊢; omega)
    refine ⟨fin, ?_, ?_, ?_, ?_, hs2, hc2, hd2, ?_⟩
    · unfold insertAllW
      rw [heq]
      exact hall
    · rw [hc]; simp [place, capacity]
    · rw [hs]; simp [place, List.length_cons]; omega
    · rw [hcl]; simp [place, List.length_cons]; omega
    · exact hp2.trans hperm2

/-- `rehash(count)` with `count` different from the current capacity (the
case where the C++ does not take the early return), under linear probing
on a table with accurate `size_` and pairwise-distinct live keys: it
succeeds, allocates exactly `max(count, 2 * size)` slots, drops every
tombstone, makes `cells == size`, and preserves the live values up to
permutation. -/
theorem rehash_spec {K V : Type} (c : Ctx K V) (n : Nat) (st : Table V) (count0 : Nat)
    (hpol : c.pol = linearProbing)
    (hsize : st.size = countData st.data)
    (hkeys : DistinctKeys c (liveList st.data))
    (hne : count0 ≠ capacity st) :
    ∃ fin, rehashF c (n + 1) st count0 = some fin ∧
      capacity fin = (if count0 < 2 * st.size then 2 * st.size else count0) ∧
      fin.size = st.size ∧ fin.cells = st.size ∧
      fin.size = countData fin.data ∧ fin.cells = countBusy fin.data ∧
      countDeleted fin.data = 0 ∧
      List.Perm (liveList fin.data) (liveList st.data) := by
  have hlen : (liveList st.data).length = st.size := by rw [liveList_length, hsize]
  obtain ⟨fin, hall, hc, hs, hcl, hs2, hc2, hd2, hp2⟩ :=
    insertAllW_spec c (fun st2 k2 => rehashF c n st2 k2) hpol (liveList st.data)
      ⟨List.replicate (if count0 < 2 * st.size then 2 * st.size else count0) Elem.free, 0, 0⟩
      (by simp) (by simp) (by simp)
      (by simpa using hkeys)
      (by
        simp only [capacity, List.length_replicate, hlen]
        split <;> omega)
  refine ⟨fin, ?_, ?_, ?_, ?_, hs2, hc2, hd2, ?_⟩
  · unfold rehashF
    rw [if_neg hne]
    exact hall
  · simpa [capacity] using hc
  · rw [hs, hlen]; simp
  · rw [hcl, hlen]; simp
  · simpa using hp2

/-- `check_size` under linear probing on a valid table: it succeeds, keeps
`size_` and the live contents, leaves the table untouched when the load
bound holds, and always ends with `cells_cnt_` at or under half the (new)
capacity. -/
theorem checkSize_spec {K V : Type} (c : Ctx K V) (n : Nat) (st : Table V)
    (hpol : c.pol = linearProbing) (hv : Valid c st) :
    ∃ st1, checkSizeF c (n + 1) st = some st1 ∧
      st1.size = st.size ∧
      Valid c st1 ∧
      2 * st1.cells ≤ capacity st1 ∧
      List.Perm (liveList st1.data) (liveList st.data) ∧
      (2 * st.cells ≤ capacity st → st1 = st) ∧
      capacity st1 = (if 2 * st.cells > capacity st then 2 * capacity st else capacity st) := by
  by_cases htrig : 2 * st.cells > capacity st
  · have hle : st.size ≤ capacity st := by
      have h1 : countData st.data ≤ countBusy st.data := countData_le_countBusy st.data
      have h2 : countBusy st.data ≤ st.data.length := countBusy_le_length st.data
      rw [hv.hsize]
      exact le_trans h1 h2
    obtain ⟨fin, hreh, hc, hs, hcl, hs2, hc2, hd2, hp2⟩ :=
      rehash_spec c n st (2 * capacity st) hpol hv.hsize hv.hkeys (by have := hv.hpos; omega)
    have hcount : (if 2 * capacity st < 2 * st.size then 2 * st.size else 2 * capacity st)
        = 2 * capacity st := by
      rw [if_neg]
      omega
    refine ⟨fin, ?_, hs, ?_, ?_, hp2, ?_, ?_⟩
    · unfold checkSizeF checkSizeW
      rw [if_pos htrig]
      exact hreh
    · exact ⟨hs2, hc2, by rw [hc, hcount]; have := hv.hpos; omega,
        (distinctKeys_perm c hp2).mpr hv.hkeys⟩
    · rw [hc, hcount, hcl]
      omega
    · intro h; omega
    · rw [hc, hcount, if_pos htrig]
  · refine ⟨st, ?_, rfl, hv, by omega, List.Perm.refl _, fun _ => rfl, by rw [if_neg htrig]⟩
    unfold checkSizeF checkSizeW
    rw [if_neg htrig]

/-! ### Quadratic probing residues, `optimal_size`, and equality -/

theorem sq_mod_eight (i : Nat) : i * i % 8 = 0 ∨ i * i % 8 = 1 ∨ i * i % 8 = 4 := by
  have h : i * i % 8 = i % 8 * (i % 8) % 8 := by rw [Nat.mul_mod]
  have h8 : i % 8 = 0 ∨ i % 8 = 1 ∨ i % 8 = 2 ∨ i % 8 = 3 ∨ i % 8 = 4 ∨ i % 8 = 5 ∨
      i % 8 = 6 ∨ i % 8 = 7 := by omega
  rcases h8 with h8 | h8 | h8 | h8 | h8 | h8 | h8 | h8 <;> rw [h, h8] <;> norm_num

/-- Every step of the quadratic walk for key 24 in `tQuad` lands on one of
the occupied slots 0, 1, 4, so the loop never reaches an exit. -/
theorem tQuad_blocked :
    ∀ m, stopsAt qCtx tQuad 24 (qCtx.pol (capacity tQuad) 24 m) = false := by
  intro m
  have hcap : capacity tQuad = 8 := rfl
  have h0 : qCtx.pol (capacity tQuad) 24 m = (24 + m * m) % 8 := by
    rw [hcap]
    rfl
  have h1 : (24 + m * m) % 8 = m * m % 8 := by omega
  rw [h0, h1]
  rcases sq_mod_eight m with h | h | h <;> rw [h] <;> decide

theorem msbAux_pow (sz : Nat) : ∀ j : Nat, 1 ≤ sz → sz < 2 ^ (j + 1) →
    ∃ i, msbAux sz (2 ^ j) (j + 1) = 2 ^ i ∧ 2 ^ i ≤ sz ∧ sz < 2 ^ (i + 1) := by
  intro j
  induction j with
  | zero =>
    intro h1 h2
    have hsz : sz = 1 := by omega
    subst hsz
    exact ⟨0, by decide, by omega, by omega⟩
  | succ j ih =>
    intro h1 h2
    have hdiv : 2 ^ (j + 1) / 2 = 2 ^ j := by
      rw [pow_succ]
      exact Nat.mul_div_cancel _ (by norm_num)
    have heq : msbAux sz (2 ^ (j + 1)) (j + 1 + 1) =
        if sz &&& 2 ^ (j + 1) = 0 then msbAux sz (2 ^ (j + 1) / 2) (j + 1) else 2 ^ (j + 1) :=
      rfl
    by_cases hbit : sz &&& 2 ^ (j + 1) = 0
    · have htb : sz.testBit (j + 1) = false := by
        have hand := Nat.and_two_pow sz (j + 1)
        rw [hbit] at hand
        rcases hb : sz.testBit (j + 1) with _ | _
        · rfl
        · rw [hb] at hand
          simp at hand
          exact absurd hand.symm (Nat.pos_iff_ne_zero.mp (Nat.pos_pow_of_pos _ (by norm_num)))
      have hlt : sz < 2 ^ (j + 1) := by
        refine Nat.lt_of_testBit (j + 1) htb Nat.testBit_two_pow_self ?_
        intro j2 hj2
        rw [Nat.testBit_two_pow_of_ne (by omega)]
        exact Nat.testBit_eq_false_of_lt
          (lt_of_lt_of_le h2 (Nat.pow_le_pow_right (by norm_num) (by omega)))
      obtain ⟨i, hi1, hi2, hi3⟩ := ih h1 hlt
      refine ⟨i, ?_, hi2, hi3⟩
      rw [heq, if_pos hbit, hdiv]
      exact hi1
    · have htb : sz.testBit (j + 1) = true := by
        have hand := Nat.and_two_pow sz (j + 1)
        rcases hb : sz.testBit (j + 1) with _ | _
        · rw [hb] at hand
          simp at hand
          exact absurd hand hbit
        · rfl
      have hge : 2 ^ (j + 1) ≤ sz := by
        by_contra hcon
        rw [Nat.testBit_eq_false_of_lt (by omega)] at htb
        cases htb
      refine ⟨j + 1, ?_, hge, h2⟩
      rw [heq, if_neg hbit]

/-- `(float)n` is exact below `2 ^ 24`. -/
theorem floatRound24_small (n : Nat) (h : n < 2 ^ 24) : floatRound24 n = n := by
  unfold floatRound24
  rw [if_pos h]

/-- `optimal_size(sz)` for `1 ≤ sz < 2^63` (bit 63 clear, so the final
shift does not wrap): twice the highest power of two at or below `sz` —
always a power of two, and the least one above `sz` when `sz` itself is
not a power of two. -/
theorem optimalSize_spec (sz : Nat) (h1 : 1 ≤ sz) (h2 : sz < 2 ^ 63) :
    ∃ i, optimalSize sz = 2 ^ (i + 1) ∧ 2 ^ i ≤ sz ∧ sz < 2 ^ (i + 1) := by
  obtain ⟨i, hi1, hi2, hi3⟩ := msbAux_pow sz 63 h1 (lt_trans h2 (by norm_num))
  have hilt : i < 63 := by
    by_contra hcon
    have hge : (2 : Nat) ^ 63 ≤ 2 ^ i := Nat.pow_le_pow_right (by norm_num) (by omega)
    omega
  have hpow : 2 * 2 ^ i = 2 ^ (i + 1) := by
    rw [pow_succ, Nat.mul_comm]
  have hlt : (2 : Nat) ^ (i + 1) < 2 ^ 64 := by
    calc (2 : Nat) ^ (i + 1) ≤ 2 ^ 63 := Nat.pow_le_pow_right (by norm_num) (by omega)
      _ < 2 ^ 64 := by norm_num
  refine ⟨i, ?_, hi2, hi3⟩
  rw [optimalSize, hi1, hpow, Nat.mod_eq_of_lt hlt]

theorem capacity_ctorMain (V : Type) (hint : Nat) :
    capacity (ctorMain V hint) = optimalSize (2 * floatRound24 hint) := by
  simp [ctorMain, mkTable, capacity]

theorem allContained_iff {K V : Type} (c : Ctx K V) (b : Table V) (L : List V) :
    allContained c b L = some true ↔ ∀ v ∈ L, containsF c b (c.kf v) = some true := by
  induction L with
  | nil => simp [allContained]
  | cons v rest ih =>
    unfold allContained
    rcases h : containsF c b (c.kf v) with _ | bv
    · constructor
      · intro hx
        exact absurd hx (by simp)
      · intro hall
        have hv := hall v (List.mem_cons_self v rest)
        rw [h] at hv
        exact absurd hv (by simp)
    · cases bv
      · constructor
        · intro hx
          exact absurd hx (by simp)
        · intro hall
          have hv := hall v (List.mem_cons_self v rest)
          rw [h] at hv
          exact absurd hv (by simp)
      · rw [ih]
        constructor
        · intro hall w hw
          rcases List.mem_cons.mp hw with rfl | hw2
          · exact h
          · exact hall w hw2
        · intro hall w hw
          exact hall w (List.mem_cons_of_mem v hw)

/-! ### Claim theorems -/

/-- C1 (amended): `emplace` first runs the load-factor check (which may
rehash, preserving `size` and the live values); in the resulting table it
walks the probe sequence from `hash(key(v)) % capacity`; at the first
stopping step — every earlier probed slot is a Tombstone or a
non-matching Occupied slot, so Tombstones are skipped and never reused as
targets — either an Occupied slot with an equal key is hit, returning that
position with `inserted = false` and leaving size, the stored values and,
when the pre-check did not rehash, every slot unchanged; or a genuinely
Empty slot is hit, which receives `v` with both `size` and `cells`
incremented and `inserted = true`. -/
theorem emplace_first_free_or_duplicate {K V : Type} (c : Ctx K V) (st : Table V) (v : V)
    (hpol : c.pol = linearProbing) (hv : validB c st = true) :
    ∃ st1, checkSizeF c 1 st = some st1 ∧ st1.size = st.size ∧
      List.Perm (liveList st1.data) (liveList st.data) ∧
      (2 * st.cells ≤ capacity st → st1 = st) ∧
      ∃ j, (∀ m, m < j →
          stopsAt c st1 (c.kf v) (c.pol (capacity st1) (c.hash (c.kf v) % capacity st1) m)
            = false) ∧
        ((∃ w, slotAt st1 (c.pol (capacity st1) (c.hash (c.kf v) % capacity st1) j)
              = Elem.data w ∧
            c.beq (c.kf w) (c.kf v) = true ∧
            emplaceF c 1 st v =
              some (st1, c.pol (capacity st1) (c.hash (c.kf v) % capacity st1) j, false)) ∨
          (slotAt st1 (c.pol (capacity st1) (c.hash (c.kf v) % capacity st1) j) = Elem.free ∧
            emplaceF c 1 st v =
              some (place st1 (c.pol (capacity st1) (c.hash (c.kf v) % capacity st1) j) v,
                c.pol (capacity st1) (c.hash (c.kf v) % capacity st1) j, true) ∧
            (place st1 (c.pol (capacity st1) (c.hash (c.kf v) % capacity st1) j) v).size
              = st.size + 1 ∧
            (place st1 (c.pol (capacity st1) (c.hash (c.kf v) % capacity st1) j) v).cells
              = st1.cells + 1 ∧
            List.Perm
              (liveList
                (place st1 (c.pol (capacity st1) (c.hash (c.kf v) % capacity st1) j) v).data)
              (v :: liveList st.data))) := by
  have hv2 := (validB_iff c st).mp hv
  obtain ⟨st1, hcs, hsz, hval1, hbound, hperm, hid, hcap⟩ := checkSize_spec c 0 st hpol hv2
  have hbusy : countBusy st1.data < capacity st1 := by
    have h1 := hval1.hcells
    have h2 := hval1.hpos
    omega
  obtain ⟨j, hjlt, hmiss, hstop, hprobe⟩ :=
    probe_some_of_free c st1 (c.kf v) (c.hash (c.kf v) % capacity st1) hpol hval1.hpos hbusy
  have hidxlt : c.pol (capacity st1) (c.hash (c.kf v) % capacity st1) j < capacity st1 := by
    rw [hpol]
    exact Nat.mod_lt _ hval1.hpos
  refine ⟨st1, hcs, hsz, hperm, hid, j, hmiss, ?_⟩
  rcases hslot : slotAt st1 (c.pol (capacity st1) (c.hash (c.kf v) % capacity st1) j)
    with _ | _ | w
  · right
    have hemp : emplaceF c 1 st v =
        some (place st1 (c.pol (capacity st1) (c.hash (c.kf v) % capacity st1) j) v,
          c.pol (capacity st1) (c.hash (c.kf v) % capacity st1) j, true) := by
      unfold emplaceF
      rw [hcs]
      simp only [hprobe, hslot, isDataB]
    refine ⟨rfl, hemp, by simp [place, hsz], rfl, ?_⟩
    exact (liveList_set_data_perm st1.data _ v hslot hidxlt).trans (hperm.cons v)
  · simp [stopsAt, hslot] at hstop
  · left
    have hbeq : c.beq (c.kf w) (c.kf v) = true := by simpa [stopsAt, hslot] using hstop
    refine ⟨w, rfl, hbeq, ?_⟩
    unfold emplaceF
    rw [hcs]
    simp only [hprobe, hslot, isDataB]

/-- Witness for `emplace_first_free_or_duplicate`: inserting the already
present key 1 into `tOne`. -/
theorem emplace_first_free_or_duplicate_witness :
    validB idCtx tOne = true ∧
      (∃ st1, checkSizeF idCtx 1 tOne = some st1 ∧ st1.size = tOne.size ∧
        List.Perm (liveList st1.data) (liveList tOne.data) ∧
        (2 * tOne.cells ≤ capacity tOne → st1 = tOne) ∧
        ∃ j, (∀ m, m < j →
            stopsAt idCtx st1 1 (linearProbing (capacity st1) (1 % capacity st1) m) = false) ∧
          ((∃ w, slotAt st1 (linearProbing (capacity st1) (1 % capacity st1) j)
                = Elem.data w ∧
              Nat.beq w 1 = true ∧
              emplaceF idCtx 1 tOne 1 =
                some (st1, linearProbing (capacity st1) (1 % capacity st1) j, false)) ∨
            (slotAt st1 (linearProbing (capacity st1) (1 % capacity st1) j) = Elem.free ∧
              emplaceF idCtx 1 tOne 1 =
                some (place st1 (linearProbing (capacity st1) (1 % capacity st1) j) 1,
                  linearProbing (capacity st1) (1 % capacity st1) j, true) ∧
              (place st1 (linearProbing (capacity st1) (1 % capacity st1) j) 1).size
                = tOne.size + 1 ∧
              (place st1 (linearProbing (capacity st1) (1 % capacity st1) j) 1).cells
                = st1.cells + 1 ∧
              List.Perm
                (liveList (place st1 (linearProbing (capacity st1) (1 % capacity st1) j) 1).data)
                (1 :: liveList tOne.data)))) :=
  ⟨by decide, emplace_first_free_or_duplicate idCtx tOne 1 rfl (by decide)⟩

/-- C1 counterexample: on the reachable table `tFive` (capacity 8, five
live keys, so `cells = 5` already exceeds `0.5 · 8`) the duplicate insert
of key 3 returns `inserted = false` — but the pre-probe `check_size` has
already rehashed the table to capacity 16, so size and value are kept yet
the slots are NOT left unchanged. -/
theorem emplace_rehash_on_duplicate_cex :
    insertRangeF idCtx 0 [0, 1, 2, 3, 4] (mkTable Nat 8) = some tFive ∧
      capacity tFive = 8 ∧
      (emplaceF idCtx 1 tFive 3).map (fun r => (capacity r.1, r.1.size, r.2.1, r.2.2)) =
        some (16, 5, 3, false) :=
  ⟨by decide, by decide, by decide⟩

/-- C2: `find(key)` probes from the hash of the key; at the first stopping
slot of the walk (every earlier probed slot is a Tombstone or a
non-matching Occupied slot — Tombstones never stop the search) it either
hits `FREE` and returns the end sentinel, or hits an Occupied slot whose
key compares equal and returns its position.  The hypothesis — some step
within one period of the walk stops — holds under linear probing whenever
a `FREE` slot exists (`linear_probe_terminates`). -/
theorem find_first_match_or_empty {K V : Type} (c : Ctx K V) (st : Table V) (k : K)
    (hstop0 : ∃ j0, j0 < capacity st ∧
      stopsAt c st k (c.pol (capacity st) (c.hash k) j0) = true) :
    ∃ j, j < capacity st ∧
      (∀ m, m < j → stopsAt c st k (c.pol (capacity st) (c.hash k) m) = false) ∧
      ((slotAt st (c.pol (capacity st) (c.hash k) j) = Elem.free ∧
          findF c st k = some none) ∨
        (∃ w, slotAt st (c.pol (capacity st) (c.hash k) j) = Elem.data w ∧
          c.beq (c.kf w) k = true ∧
          findF c st k = some (some (c.pol (capacity st) (c.hash k) j)))) := by
  obtain ⟨j0, hj0, hs0⟩ := hstop0
  obtain ⟨j, hstop, hmin, hle⟩ := exists_least_stop c st k (c.hash k) ⟨j0, hs0⟩
  have hjlt : j < capacity st := lt_of_le_of_lt (hle j0 hs0) hj0
  have hprobe := probeAux_first c st k (c.hash k) (capacity st) 0 j (Nat.zero_le j)
    (by omega) (fun m _ hm2 => hmin m hm2) hstop
  refine ⟨j, hjlt, hmin, ?_⟩
  rcases hslot : slotAt st (c.pol (capacity st) (c.hash k) j) with _ | _ | w
  · left
    refine ⟨rfl, ?_⟩
    unfold findF
    rw [hprobe, hslot]
    simp [isDataB]
  · simp [stopsAt, hslot] at hstop
  · right
    have hbeq : c.beq (c.kf w) k = true := by simpa [stopsAt, hslot] using hstop
    refine ⟨w, rfl, hbeq, ?_⟩
    unfold findF
    rw [hprobe, hslot]
    simp [isDataB]

/-- Witness for `find_first_match_or_empty`: under `zCtx` (all keys hash
to bucket 0) in `tSkip` the walk for key 5 skips the tombstone in slot 0
and finds key 5 in slot 1. -/
theorem find_first_match_or_empty_witness :
    ∃ j, j < capacity tSkip ∧
      (∀ m, m < j → stopsAt zCtx tSkip 5 (linearProbing (capacity tSkip) 0 m) = false) ∧
      ((slotAt tSkip (linearProbing (capacity tSkip) 0 j) = Elem.free ∧
          findF zCtx tSkip 5 = some none) ∨
        (∃ w, slotAt tSkip (linearProbing (capacity tSkip) 0 j) = Elem.data w ∧
          Nat.beq w 5 = true ∧
          findF zCtx tSkip 5 = some (some (linearProbing (capacity tSkip) 0 j)))) :=
  find_first_match_or_empty zCtx tSkip 5 ⟨1, by decide, by decide⟩

/-- C3 (amended): with `LinearProbing`, every probe loop (the loop shared
by `emplace`, the private `insert` and `find`) exits within `capacity`
steps whenever a `FREE` slot exists — which holds in every reachable
state, where `cells < capacity`. -/
theorem linear_probe_terminates {K V : Type} (c : Ctx K V) (st : Table V) (k : K)
    (start : Nat) (hpol : c.pol = linearProbing)
    (hbusy : countBusy st.data < capacity st) :
    ∃ r, probeAux c st k start 0 (capacity st) = some r := by
  obtain ⟨j, _, _, _, hp⟩ := probe_some_of_free c st k start hpol
    (Nat.lt_of_le_of_lt (Nat.zero_le _) hbusy) hbusy
  exact ⟨_, hp⟩

/-- Witness for `linear_probe_terminates` on `tFive`. -/
theorem linear_probe_terminates_witness :
    ∃ r, probeAux idCtx tFive 3 5 0 (capacity tFive) = some r :=
  linear_probe_terminates idCtx tFive 3 5 rfl (by decide)

/-- C3 counterexample: with `QuadraticProbing` on the capacity-8 table
`tQuad` — reachable by inserting keys 0, 8, 16 into a fresh capacity-8
table, and satisfying the table invariants with free slots remaining
(`cells = 3 < 8`) — the probe walk for the absent key 24 visits only the
slots `{0, 1, 4}` (the quadratic residues mod 8), all occupied by other
keys, so no amount of fuel makes the loop exit: `find` never terminates
in the C++. -/
theorem quadratic_probe_diverges_cex :
    QuadStuck ∧ validB qCtx tQuad = true ∧ tQuad.cells < capacity tQuad ∧
      findF qCtx tQuad 24 = none ∧
      insertRangeF qCtx 0 [0, 8, 16] (mkTable Nat 8) = some tQuad := by
  refine ⟨?_, by decide, by decide, by decide, by decide⟩
  intro fuel
  exact probeAux_blocked qCtx tQuad 24 24 tQuad_blocked fuel 0

/-- C4 (amended): after any successful `emplace` (inserting or not) the
resulting table satisfies `size ≤ cells` and `2 · cells ≤ capacity + 2`,
i.e. `size / bucket_count() ≤ 0.5 + 1 / bucket_count()`; the strict `0.5`
bound of the claim can be exceeded by exactly the boundary insert, because
`check_size` rehashes only when `cells` already EXCEEDS half the capacity
before the insert. -/
theorem insert_load_bound {K V : Type} (c : Ctx K V) (st st1 : Table V) (v : V)
    (idx : Nat) (ins : Bool)
    (hpol : c.pol = linearProbing) (hv : validB c st = true)
    (h : emplaceF c 1 st v = some (st1, idx, ins)) :
    st1.size ≤ st1.cells ∧ 2 * st1.cells ≤ capacity st1 + 2 := by
  have hv2 := (validB_iff c st).mp hv
  obtain ⟨st2, hcs, hsz, hval2, hbound, hperm, hid, hcap⟩ := checkSize_spec c 0 st hpol hv2
  have hsc : st2.size ≤ st2.cells := by
    rw [hval2.hsize, hval2.hcells]
    exact countData_le_countBusy st2.data
  rcases hp : probeAux c st2 (c.kf v) (c.hash (c.kf v) % capacity st2) 0 (capacity st2) with
    _ | ⟨idx2, b⟩
  · have hval : emplaceF c 1 st v = none := by
      unfold emplaceF
      rw [hcs]
      simp only [hp]
    rw [hval] at h
    exact absurd h (by simp)
  · cases b
    · have hval : emplaceF c 1 st v = some (place st2 idx2 v, idx2, true) := by
        unfold emplaceF
        rw [hcs]
        simp only [hp]
      rw [hval] at h
      simp only [Option.some.injEq, Prod.mk.injEq] at h
      obtain ⟨h1, h2, h3⟩ := h
      rw [← h1]
      constructor
      · simp [place]
        omega
      · simp only [place, capacity, List.length_set]
        have hcl : capacity st2 = st2.data.length := rfl
        omega
    · have hval : emplaceF c 1 st v = some (st2, idx2, false) := by
        unfold emplaceF
        rw [hcs]
        simp only [hp]
      rw [hval] at h
      simp only [Option.some.injEq, Prod.mk.injEq] at h
      obtain ⟨h1, h2, h3⟩ := h
      rw [← h1]
      exact ⟨hsc, by omega⟩

/-- Witness for `insert_load_bound`: inserting key 2 into `tOne`. -/
theorem insert_load_bound_witness :
    (validB idCtx tOne = true ∧ emplaceF idCtx 1 tOne 2 = some (tTwo, 2, true)) ∧
      tTwo.size ≤ tTwo.cells ∧ 2 * tTwo.cells ≤ capacity tTwo + 2 :=
  ⟨⟨by decide, by decide⟩,
    insert_load_bound idCtx tOne tTwo 2 2 true rfl (by decide) (by decide)⟩

/-- C4 counterexample: inserting the nine distinct keys 0..8 into a fresh
hint-4 table (capacity 16) triggers no rehash (the run succeeds with
rehash-fuel 0, which would fail if `check_size` ever fired), and ends with
`size = 9`: right after an insert, `size / bucket_count() = 9/16 > 0.5`. -/
theorem insert_load_bound_cex :
    (insertRangeF idCtx 0 [0, 1, 2, 3, 4, 5, 6, 7, 8] (ctorMain Nat 4)).map
      (fun st => (capacity st, st.size)) = some (16, 9) ∧ ¬ 2 * 9 ≤ 16 :=
  ⟨by decide, by decide⟩

/-- C5 (amended): for every requested capacity DIFFERENT from the current
`bucket_count()` (the case where `rehash` does not take its early
return), under linear probing on a valid table, `rehash` succeeds, keeps
the set of live values (up to slot order), drops every Tombstone, ends
with `cells == size`, and allocates `max(count, 2 · size)` slots. -/
theorem rehash_preserves_content {K V : Type} (c : Ctx K V) (st : Table V) (count : Nat)
    (hpol : c.pol = linearProbing) (hv : validB c st = true)
    (hne : count ≠ capacity st) :
    ∃ fin, rehashF c 1 st count = some fin ∧
      List.Perm (liveList fin.data) (liveList st.data) ∧
      countDeleted fin.data = 0 ∧
      fin.cells = fin.size ∧ fin.size = st.size ∧
      capacity fin = (if count < 2 * st.size then 2 * st.size else count) := by
  have hv2 := (validB_iff c st).mp hv
  obtain ⟨fin, h1, h2, h3, h4, h5, h6, h7, h8⟩ :=
    rehash_spec c 0 st count hpol hv2.hsize hv2.hkeys hne
  exact ⟨fin, h1, h8, h7, by rw [h4, h3], h3, h2⟩

/-- Witness for `rehash_preserves_content`: rehashing `tTomb` (one live
key, one tombstone) to 16 slots. -/
theorem rehash_preserves_content_witness :
    (validB idCtx tTomb = true ∧ (16 : Nat) ≠ capacity tTomb) ∧
      ∃ fin, rehashF idCtx 1 tTomb 16 = some fin ∧
        List.Perm (liveList fin.data) (liveList tTomb.data) ∧
        countDeleted fin.data = 0 ∧
        fin.cells = fin.size ∧ fin.size = tTomb.size ∧
        capacity fin = (if 16 < 2 * tTomb.size then 2 * tTomb.size else 16) :=
  ⟨⟨by decide, by decide⟩, rehash_preserves_content idCtx tTomb 16 rfl (by decide) (by decide)⟩

/-- C5 counterexample: `rehash(bucket_count())` returns immediately — on
`tTomb` (a tombstone in slot 0) requesting the current capacity 8 leaves
the tombstone in place and `cells ≠ size`, so "every Tombstone slot is
gone" fails for this valid new capacity. -/
theorem rehash_same_capacity_noop_cex :
    rehashF idCtx 1 tTomb 8 = some tTomb ∧ capacity tTomb = 8 ∧
      countDeleted tTomb.data = 1 ∧ tTomb.cells ≠ tTomb.size :=
  ⟨by decide, by decide, by decide, by decide⟩

/-- C6 (amended): the main and range constructors produce capacity
`optimal_size(2 · hint)` — a power of two, at least 4, for every hint in
`[1, 2^23]` (where the `size_t → float` conversion is exact; not always
≥ 8: hint 1 gives 4); at hint `2^62` the `k << 1u` of `optimal_size`
wraps and the constructed capacity is 0; the initializer-list constructor
allocates `2 · hint` slots with NO power-of-two rounding (for hints whose
`float` conversion is exact); and `rehash(count)` with `count ≠
bucket_count()` allocates exactly `max(count, 2 · size)` slots, never
rounding to a power of two. -/
theorem capacity_shape :
    (∀ hint : Nat, 1 ≤ hint → hint ≤ 2 ^ 23 →
      ∃ i, capacity (ctorMain Nat hint) = 2 ^ (i + 1) ∧
        4 ≤ capacity (ctorMain Nat hint)) ∧
    capacity (ctorMain Nat (2 ^ 62)) = 0 ∧
    (∀ hint : Nat, hint ≤ 2 ^ 23 →
      ctorInit idCtx 1 ([] : List Nat) hint = some (mkTable Nat (2 * hint))) ∧
    (∀ (st : Table Nat) (count : Nat), validB idCtx st = true → count ≠ capacity st →
      ∃ fin, rehashF idCtx 1 st count = some fin ∧
        capacity fin = (if count < 2 * st.size then 2 * st.size else count)) := by
  refine ⟨?_, ?_, ?_, ?_⟩
  · intro hint h1 h2
    have h24 : hint < 2 ^ 24 := by
      have : (2 : Nat) ^ 23 < 2 ^ 24 := by norm_num
      omega
    have hfr : floatRound24 hint = hint := floatRound24_small hint h24
    have hsz1 : 1 ≤ 2 * hint := by omega
    have hsz2 : 2 * hint < 2 ^ 63 := by
      have e23 : (2 : Nat) ^ 23 = 8388608 := by norm_num
      have e63 : (2 : Nat) ^ 63 = 9223372036854775808 := by norm_num
      rw [e23] at h2
      rw [e63]
      omega
    obtain ⟨i, hi1, hi2, hi3⟩ := optimalSize_spec (2 * hint) hsz1 hsz2
    refine ⟨i, ?_, ?_⟩
    · rw [capacity_ctorMain, hfr]
      exact hi1
    · rw [capacity_ctorMain, hfr, hi1]
      rcases Nat.eq_zero_or_pos i with rfl | hip
      · norm_num at hi3
        omega
      · calc (4 : Nat) = 2 ^ 2 := by norm_num
          _ ≤ 2 ^ (i + 1) := Nat.pow_le_pow_right (by norm_num) (by omega)
  · decide
  · intro hint h
    have h24 : hint < 2 ^ 24 := by
      have : (2 : Nat) ^ 23 < 2 ^ 24 := by norm_num
      omega
    unfold ctorInit
    rw [floatRound24_small hint h24]
    rfl
  · intro st count hval hne
    have hv := (validB_iff idCtx st).mp hval
    obtain ⟨fin, h1, h2, h3, h4, h5, h6, h7, h8⟩ :=
      rehash_spec idCtx 0 st count rfl hv.hsize hv.hkeys hne
    exact ⟨fin, h1, h2⟩

/-- Witness for `capacity_shape`: hint 3, an init-list hint 5, and a
concrete non-power-of-two rehash of `tTomb`. -/
theorem capacity_shape_witness :
    (∃ i, capacity (ctorMain Nat 3) = 2 ^ (i + 1) ∧ 4 ≤ capacity (ctorMain Nat 3)) ∧
      ctorInit idCtx 1 ([] : List Nat) 5 = some (mkTable Nat 10) ∧
      ∃ fin, rehashF idCtx 1 tTomb 12 = some fin ∧
        capacity fin = (if 12 < 2 * tTomb.size then 2 * tTomb.size else 12) :=
  ⟨capacity_shape.1 3 (by norm_num) (by norm_num),
    capacity_shape.2.2.1 5 (by norm_num),
    capacity_shape.2.2.2 tTomb 12 (by decide) (by decide)⟩

/-- C6 counterexample: hint 1 (the default `expected_max_size`) gives
capacity `optimal_size(2) = 4 < 8`; the initializer-list constructor with
hint 3 allocates 6 slots — not a power of two; and `rehash(12)` on an
empty capacity-8 table allocates exactly 12 slots — no rounding. -/
theorem capacity_bounds_cex :
    capacity (ctorMain Nat 1) = 4 ∧ ¬ 8 ≤ capacity (ctorMain Nat 1) ∧
      (ctorInit idCtx 1 ([] : List Nat) 3).map capacity = some 6 ∧
      (rehashF idCtx 1 (mkTable Nat 8) 12).map capacity = some 12 :=
  ⟨by decide, by decide, by decide, by decide⟩

/-- C7: `erase(key)` on an absent key does NOT return 0 and leave the
table unchanged — the do-while body runs at least once, so the code
erases the end iterator: an out-of-bounds slot write at index
`bucket_count()` plus a `size_t` underflow of `size_` (an error, modeled
as `none`); on a present unique key the loop erases the slot and returns
1 as the spec intends. -/
theorem erase_missing_key_oob :
    eraseKeyF idCtx (mkTable Nat 8) 0 1 = none ∧
      eraseKeyF idCtx tOne 1 2 = some (tOneErased, 1) :=
  ⟨by decide, by decide⟩

/-- C8 (amended): `operator==` returns true exactly when the sizes agree
and every live value of the left table has its KEY contained (via the
probe walk) in the right table; mapped values are never compared. -/
theorem tableEq_iff_keys {K V : Type} (c : Ctx K V) (a b : Table V) :
    tableEqF c a b = some true ↔
      a.size = b.size ∧ ∀ v ∈ liveList a.data, containsF c b (c.kf v) = some true := by
  unfold tableEqF
  by_cases hs : a.size = b.size
  · rw [if_pos hs, allContained_iff]
    simp [hs]
  · rw [if_neg hs]
    constructor
    · intro hx
      exact absurd hx (by simp)
    · rintro ⟨h1, _⟩
      exact absurd h1 hs

/-- C8 counterexample: two map-tables (`HashMap` instantiation: the key is
`.first` of the stored pair) binding the same key 1 to different mapped
values — 100 and 200 — compare EQUAL under `operator==`, because the
comparison checks key containment only. -/
theorem tableEq_ignores_values_cex :
    tableEqF mapCtx tMapX tMapY = some true ∧ tMapX ≠ tMapY :=
  ⟨by decide, by decide⟩

/-- C9 counterexample: a table constructed with expected-size hint 4 has
capacity 16, not 8 — `optimal_size(8)` returns twice the highest set bit,
16. -/
theorem hint_four_capacity_cex :
    capacity (ctorMain Nat 4) = 16 ∧ capacity (ctorMain Nat 4) ≠ 8 :=
  ⟨by decide, by decide⟩

/-- C9 (amended): with hint 4 the fresh capacity is 16; inserting the five
distinct keys 1..5 triggers NO rehash (the run succeeds with rehash-fuel
0, which would fail if `check_size` ever fired), ending with
`bucket_count() = 16`, `size() = 5` and `cells = 5`. -/
theorem hint_four_scenario :
    capacity (ctorMain Nat 4) = 16 ∧
      (insertRangeF idCtx 0 [1, 2, 3, 4, 5] (ctorMain Nat 4)).map
        (fun st => (capacity st, st.size, st.cells)) = some (16, 5, 5) :=
  ⟨by decide, by decide⟩

/-- C10: `clear()` always leaves exactly 8 `FREE` slots with `size = 0`
and `cells = 0`, whatever the previous capacity and contents: the old
vector is discarded (`data_.clear()`) and `resize(8)` default-constructs
8 empty slots. -/
theorem clear_resets_to_eight {V : Type} (st : Table V) :
    capacity (clear st) = 8 ∧ (clear st).size = 0 ∧ (clear st).cells = 0 ∧
      ∀ i, i < 8 → slotAt (clear st) i = Elem.free := by
  refine ⟨by simp [clear, vecResize, vecClear, capacity], rfl, rfl, ?_⟩
  intro i hi
  interval_cases i <;> rfl

/-- Witness for `tableEq_iff_keys` at the concrete map tables. -/
theorem tableEq_iff_keys_witness :
    tableEqF mapCtx tMapX tMapY = some true ↔
      tMapX.size = tMapY.size ∧
        ∀ v ∈ liveList tMapX.data, containsF mapCtx tMapY (mapCtx.kf v) = some true :=
  tableEq_iff_keys mapCtx tMapX tMapY

/-- Witness for `clear_resets_to_eight` at `tFive`. -/
theorem clear_resets_to_eight_witness :
    capacity (clear tFive) = 8 ∧ (clear tFive).size = 0 ∧ (clear tFive).cells = 0 ∧
      ∀ i, i < 8 → slotAt (clear tFive) i = Elem.free :=
  clear_resets_to_eight tFive
